import Mathlib

/-!
Shallow embedding of `mypackage/__init__.py`, a GitHub statistics and
commit-graph command-line tool.

HTTP traffic is modelled by an oracle (`World`) giving each endpoint's reply;
logging is modelled as an accumulated list of entries (debug-level URL
announcements are omitted, and message texts are kept close to the source
without quote characters); Python exceptions are modelled with `Except`;
writing the dot file is modelled by returning `some graph`.  The access
token, user and repository name only select which remote data is seen, so
they are absorbed into the oracle.
-/

/-- Severity levels of the logging module, as used by the code. -/
inductive Level
  | debug
  | info
  | warning
  | error
deriving DecidableEq, Repr

/-- One log line: severity and message. -/
abbrev LogEntry := Level × String

/-- Python exceptions the embedded code can raise. -/
inductive PyError
  | typeError
  | nameError
  | indexError
  | keyError
deriving DecidableEq, Repr

/-- A release record: the fields the code reads (name, tag_name). -/
structure Release where
  name : String
  tagName : String
deriving DecidableEq, Repr

/-- Repository info: the two count fields read with `.get(_, 0)`. -/
structure RepoInfo where
  forksCount : Option Nat
  stargazersCount : Option Nat
deriving DecidableEq, Repr

/-- A commit as the code reads it: sha, commit.message, parents[i].sha. -/
structure Commit where
  sha : String
  message : String
  parents : List String
deriving DecidableEq, Repr

/-- A pull request: the fields the code reads. -/
structure PullRequest where
  login : String
  headRef : String
  mergedAt : Option String
  mergeCommitSha : Option String
  commitsUrl : String
deriving DecidableEq, Repr

/-- A pydot node: name and label. -/
structure Node where
  name : String
  label : String
deriving DecidableEq, Repr

/-- A pydot edge, identified by the names of its endpoint nodes. -/
structure Edge where
  src : String
  dst : String
deriving DecidableEq, Repr

/-- A pydot digraph: accumulated nodes and edges, in insertion order. -/
structure Graph where
  nodes : List Node
  edges : List Edge
deriving DecidableEq, Repr

/-- The summary record returned by get_github_data. -/
structure Summary where
  releases : List Release
  forksCount : Nat
  stargazersCount : Nat
  contributorsCount : Nat
  pullsCount : Nat
  contributorsPullsSorted : List (String × Nat)
deriving DecidableEq, Repr

/-- Network oracle: the reply of each endpoint the code calls.  A pair
`(status, body)` models a reply whose JSON body parses to `body`; for the
single-commit fetch, `none` models `requests` raising (a connection fault, or
`raise_for_status` on a non-2xx reply). -/
structure World where
  releasesResp : Nat × List Release
  repoResp : Nat × RepoInfo
  contributorsResp : Nat × List String
  pullsResp : Nat × List PullRequest
  pullsClosedResp : Nat × List PullRequest
  commitsFor : String → Nat × List Commit
  commitFetch : String → Option Commit

/-- Characters Python str.splitlines treats as line boundaries. -/
def isLineBreak (c : Char) : Bool :=
  c = '\n' || c = '\r' || c = '\x0b' || c = '\x0c' ||
  c = '\x1c' || c = '\x1d' || c = '\x1e' || c = '\x85' ||
  c = '\u2028' || c = '\u2029'

/-- Worker for `pythonSplitlines`; `acc` holds the current line reversed. -/
def splitlinesAux (acc : List Char) : List Char → List String
  | [] => if acc.isEmpty then [] else [String.mk acc.reverse]
  | '\r' :: '\n' :: rest => String.mk acc.reverse :: splitlinesAux [] rest
  | c :: rest =>
    if isLineBreak c then String.mk acc.reverse :: splitlinesAux [] rest
    else splitlinesAux (c :: acc) rest

/-- Python str.splitlines. -/
def pythonSplitlines (s : String) : List String :=
  splitlinesAux [] s.data

/-- Python replace of the templated commits_url suffix (an opening brace,
then /sha, then a closing brace) by the empty string, specialised to that
fixed pattern; a left-to-right non-overlapping scan like str.replace. -/
def stripShaTemplate : List Char → List Char
  | '\x7b' :: '/' :: 's' :: 'h' :: 'a' :: '\x7d' :: rest => stripShaTemplate rest
  | c :: rest => c :: stripShaTemplate rest
  | [] => []

/-- The commits_url with its templated suffix removed. -/
def stripCommitsUrl (u : String) : String :=
  String.mk (stripShaTemplate u.data)

/-- First seven characters of the merge hash (slicing with [:7]). -/
def take7 (s : String) : String := String.mk (s.data.take 7)

/-- Assoc-list model of the Python nodes dict: lookup by key. -/
def dictLookup : List (String × Node) → String → Option Node
  | [], _ => none
  | (k, v) :: rest, u => if k = u then some v else dictLookup rest u

/-- Assoc-list model of the Python nodes dict: assignment, overwriting in
place or appending, preserving insertion order. -/
def dictInsert : List (String × Node) → String → Node → List (String × Node)
  | [], k, v => [(k, v)]
  | (k0, v0) :: rest, k, v =>
    if k0 = k then (k0, v) :: rest else (k0, v0) :: dictInsert rest k v

/-- Lookup in the insertion-ordered tally dict. -/
def tallyLookup : List (String × Nat) → String → Option Nat
  | [], _ => none
  | (k, n) :: rest, u => if k = u then some n else tallyLookup rest u

/-- The count a login maps to in the tally (0 when absent). -/
def tallyValue (m : List (String × Nat)) (u : String) : Nat :=
  (tallyLookup m u).getD 0

/-- One step of the tally loop: increment an existing entry in place or
append a new entry with count 1 (Python dict insertion-order semantics). -/
def tallyInsert : List (String × Nat) → String → List (String × Nat)
  | [], v => [(v, 1)]
  | (k, n) :: rest, v =>
    if k = v then (k, n + 1) :: rest else (k, n) :: tallyInsert rest v

/-- The contributors_pulls tally of get_github_data: one increment per pull
request, keyed by author login, in encounter order. -/
def contributorsPulls (prs : List PullRequest) : List (String × Nat) :=
  prs.foldl (fun m pr => tallyInsert m pr.login) []

/-- Stable descending insertion by count: the new element goes before the
first element whose count is not larger than its own. -/
def insertDesc (x : String × Nat) : List (String × Nat) → List (String × Nat)
  | [] => [x]
  | y :: ys => if y.2 ≤ x.2 then x :: y :: ys else y :: insertDesc x ys

/-- Python sorted with key count and reverse, a stable sort: descending by
count, equal counts keeping their original (first-seen) order. -/
def sortDescStable : List (String × Nat) → List (String × Nat)
  | [] => []
  | x :: xs => insertDesc x (sortDescStable xs)

/-- get_github_data: four fetches with log-and-fallback on non-200 status,
the per-contributor tally, and the stable descending ranking.  The
pull-request fallback branch sets pulls_count but leaves the local variable
pulls unbound (modelled by `none`), so the tally loop raises there. -/
def get_github_data (w : World) : Except PyError Summary × List LogEntry :=
  let relLog : List LogEntry :=
    if w.releasesResp.1 = 200 then []
    else [(Level.error, "Failed to fetch releases: " ++ toString w.releasesResp.1)]
  let releases : List Release :=
    if w.releasesResp.1 = 200 then w.releasesResp.2.take 3 else []
  let repoLog : List LogEntry :=
    if w.repoResp.1 = 200 then []
    else [(Level.error, "Failed to fetch repo info: " ++ toString w.repoResp.1)]
  let forksCount : Nat :=
    if w.repoResp.1 = 200 then w.repoResp.2.forksCount.getD 0 else 0
  let stargazersCount : Nat :=
    if w.repoResp.1 = 200 then w.repoResp.2.stargazersCount.getD 0 else 0
  let contribLog : List LogEntry :=
    if w.contributorsResp.1 = 200 then []
    else [(Level.error, "Failed to fetch contributors: " ++ toString w.contributorsResp.1)]
  let contributorsCount : Nat :=
    if w.contributorsResp.1 = 200 then w.contributorsResp.2.length else 0
  let pullsLog : List LogEntry :=
    if w.pullsResp.1 = 200 then []
    else [(Level.error, "Failed to fetch pull requests: " ++ toString w.pullsResp.1)]
  let pullsOpt : Option (List PullRequest) :=
    if w.pullsResp.1 = 200 then some w.pullsResp.2 else none
  let pullsCount : Nat :=
    if w.pullsResp.1 = 200 then w.pullsResp.2.length else 0
  let logs := relLog ++ repoLog ++ contribLog ++ pullsLog
  match pullsOpt with
  | none => (Except.error PyError.nameError, logs)
  | some ps =>
    (Except.ok
      { releases := releases
        forksCount := forksCount
        stargazersCount := stargazersCount
        contributorsCount := contributorsCount
        pullsCount := pullsCount
        contributorsPullsSorted := sortDescStable (contributorsPulls ps) }, logs)

/-- get_parent_commit: dereferences parents[0] before the try-block (an
IndexError on a parentless commit), then one guarded fetch: a network or
HTTP fault is caught, error-logged and turned into a null result. -/
def get_parent_commit (w : World) (c : Commit) :
    Except PyError (Option Commit) × List LogEntry :=
  match c.parents with
  | [] => (Except.error PyError.indexError, [])
  | p :: _ =>
    match w.commitFetch p with
    | none =>
      (Except.ok none,
        [(Level.info, "Fetching commit information for commit " ++ c.sha),
         (Level.error, "Failed to fetch commit information for commit " ++ c.sha)])
    | some pc =>
      (Except.ok (some pc),
        [(Level.info, "Fetching commit information for commit " ++ c.sha),
         (Level.debug, "Parent commit hash for commit " ++ c.sha ++ " is: " ++ p)])

/-- The for-else scan of get_commits_for_branch over the closed pull
requests: the first pull request matching on head.ref with a non-null
merged_at wins; the else branch logs a warning when nothing matches. -/
def scanPulls (w : World) (branchName : String) :
    List PullRequest → (Option (List Commit) × Option String) × List LogEntry
  | [] =>
    ((none, none),
      [(Level.warning, "No merged pull request found for branch " ++ branchName)])
  | pr :: rest =>
    if pr.headRef = branchName ∧ pr.mergedAt.isSome then
      let resp := w.commitsFor (stripCommitsUrl pr.commitsUrl)
      if resp.1 = 200 then ((some resp.2, pr.mergeCommitSha), [])
      else
        ((none, none),
          [(Level.error,
            "Failed to fetch commits for branch " ++ branchName ++
              ". Status Code: " ++ toString resp.1)])
    else scanPulls w branchName rest

/-- get_commits_for_branch: list closed pull requests into master (a single
page), then scan for the branch.  Returns the commit list and the merge
hash, both None-able. -/
def get_commits_for_branch (w : World) (branchName : String) :
    (Option (List Commit) × Option String) × List LogEntry :=
  if w.pullsClosedResp.1 = 200 then
    scanPulls w branchName w.pullsClosedResp.2
  else
    ((none, none),
      [(Level.error,
        "Failed to fetch pull requests. Status Code: " ++ toString w.pullsClosedResp.1)])

/-- The node loop of create_commit_graph: one pydot node per commit, the
label being the first splitlines element of the message.  A None
placeholder raises a TypeError; an empty message raises an IndexError. -/
def buildNodes : List (Option Commit) → List Node → List (String × Node) →
    Except PyError (List Node × List (String × Node))
  | [], acc, dict => Except.ok (acc, dict)
  | none :: _, _, _ => Except.error PyError.typeError
  | some c :: rest, acc, dict =>
    match pythonSplitlines c.message with
    | [] => Except.error PyError.indexError
    | line :: _ =>
      buildNodes rest (acc ++ [Node.mk c.sha line])
        (dictInsert dict c.sha (Node.mk c.sha line))

/-- The inner parent loop: an edge from nodes[parent] to nodes[sha] for each
parent hash present in the node dict; absent parents are skipped silently. -/
def parentEdges (dict : List (String × Node)) (sha : String) :
    List String → Except PyError (List Edge)
  | [] => Except.ok []
  | p :: ps =>
    match dictLookup dict p with
    | none => parentEdges dict sha ps
    | some pn =>
      match dictLookup dict sha with
      | none => Except.error PyError.keyError
      | some sn =>
        match parentEdges dict sha ps with
        | Except.error e => Except.error e
        | Except.ok es => Except.ok (Edge.mk pn.name sn.name :: es)

/-- The outer edge loop over the (possibly None-extended) commit list. -/
def commitEdges (dict : List (String × Node)) :
    List (Option Commit) → Except PyError (List Edge)
  | [] => Except.ok []
  | none :: _ => Except.error PyError.typeError
  | some c :: rest =>
    match parentEdges dict c.sha c.parents with
    | Except.error e => Except.error e
    | Except.ok es =>
      match commitEdges dict rest with
      | Except.error e => Except.error e
      | Except.ok es2 => Except.ok (es ++ es2)

/-- The tail of create_commit_graph after the node loop and the merged-node
block: the parent-edge loop, the unconditional first-commit-to-merge edge
(raising when no merge node was ever bound), graph assembly and the file
write (modelled by returning the written graph). -/
def finishGraph (logPfx : List LogEntry) (nodeList : List Node)
    (dict : List (String × Node)) (allCommits : List (Option Commit))
    (mergedNodeOpt : Option Node) (mergeEdges : List Edge) (outputFile : String) :
    Except PyError (Option Graph) × List LogEntry :=
  match commitEdges dict allCommits with
  | Except.error e => (Except.error e, logPfx)
  | Except.ok pes =>
    match allCommits with
    | [] => (Except.error PyError.indexError, logPfx)
    | none :: _ => (Except.error PyError.typeError, logPfx)
    | some fc :: _ =>
      match dictLookup dict fc.sha with
      | none => (Except.error PyError.keyError, logPfx)
      | some fn =>
        match mergedNodeOpt with
        | none => (Except.error PyError.nameError, logPfx)
        | some mn =>
          (Except.ok (some
            { nodes := nodeList ++ [mn]
              edges := mergeEdges ++ pes ++ [Edge.mk fn.name mn.name] }),
            logPfx ++ [(Level.info, "Commit graph generated and saved as " ++ outputFile)])

/-- create_commit_graph: the full graph pipeline.  In the result, `some g`
means the dot file was written containing graph `g`; `none` means the
function returned None without writing; an `Except.error` models an uncaught
exception escaping the function. -/
def create_commit_graph (w : World) (branchName : String) (outputFile : String) :
    Except PyError (Option Graph) × List LogEntry :=
  let r1 := get_commits_for_branch w branchName
  match r1.1.1 with
  | none =>
    (Except.ok none,
      r1.2 ++ [(Level.error,
        "Failed to fetch commits for branch " ++ branchName ++ ". Exiting.")])
  | some [] =>
    (Except.ok none,
      r1.2 ++ [(Level.error,
        "Failed to fetch commits for branch " ++ branchName ++ ". Exiting.")])
  | some (c0 :: cs) =>
    let r2 := get_parent_commit w c0
    match r2.1 with
    | Except.error e => (Except.error e, r1.2 ++ r2.2)
    | Except.ok parentCommit =>
      let allCommits : List (Option Commit) := parentCommit :: (c0 :: cs).map some
      match buildNodes allCommits [] [] with
      | Except.error e => (Except.error e, r1.2 ++ r2.2)
      | Except.ok (nodeList, dict) =>
        match r1.1.2 with
        | some mh =>
          let mergedNode : Node := Node.mk mh ("Merged Commit: " ++ take7 mh)
          match allCommits.getLast? with
          | none => (Except.error PyError.indexError, r1.2 ++ r2.2)
          | some none => (Except.error PyError.typeError, r1.2 ++ r2.2)
          | some (some lastC) =>
            match dictLookup dict lastC.sha with
            | some lastNode =>
              finishGraph (r1.2 ++ r2.2) nodeList dict allCommits (some mergedNode)
                [Edge.mk lastNode.name mergedNode.name] outputFile
            | none =>
              finishGraph
                (r1.2 ++ r2.2 ++
                  [(Level.warning,
                    "Last commit SHA " ++ lastC.sha ++ " not found among nodes.")])
                nodeList dict allCommits (some mergedNode) [] outputFile
        | none => finishGraph (r1.2 ++ r2.2) nodeList dict allCommits none [] outputFile

/-- Modelled from the spec: the node label the specification describes, the
commit message truncated at the first newline character. -/
def firstLineAtNewline (s : String) : String :=
  String.mk (s.data.takeWhile (fun c => c ≠ '\n'))

/-- The number of pull requests authored by a given login. -/
def prCountOf (u : String) (prs : List PullRequest) : Nat :=
  (prs.filter (fun pr => pr.login = u)).length

/-- There is a node of the given name in the graph. -/
def nodeNamed (g : Graph) (s : String) : Prop :=
  ∃ n, n ∈ g.nodes ∧ n.name = s

/-- Both endpoints of the edge name nodes present in the graph. -/
def edgeClosed (g : Graph) (e : Edge) : Prop :=
  nodeNamed g e.src ∧ nodeNamed g e.dst

/-- Every value of the node dict is a node whose name is its key. -/
def dictNamed (d : List (String × Node)) : Prop :=
  ∀ kv ∈ d, (kv : String × Node).2.name = kv.1


/-- Example pull requests for the ranking example: logins encountered in
first-seen order alice, bob, carol with counts 2, 2, 1. -/
def tallyExample : List PullRequest :=
  [{ login := "alice", headRef := "x", mergedAt := none, mergeCommitSha := none, commitsUrl := "u" },
   { login := "bob", headRef := "x", mergedAt := none, mergeCommitSha := none, commitsUrl := "u" },
   { login := "alice", headRef := "x", mergedAt := none, mergeCommitSha := none, commitsUrl := "u" },
   { login := "carol", headRef := "x", mergedAt := none, mergeCommitSha := none, commitsUrl := "u" },
   { login := "bob", headRef := "x", mergedAt := none, mergeCommitSha := none, commitsUrl := "u" }]

/-- A three-commit branch: c1 is parent of c2 is parent of c3, and c1's
parent p0 is the pre-branch anchor commit. -/
def commitC1 : Commit := { sha := "c1", message := "m1", parents := ["p0"] }

/-- Second commit of the example branch. -/
def commitC2 : Commit := { sha := "c2", message := "m2", parents := ["c1"] }

/-- Third commit of the example branch. -/
def commitC3 : Commit := { sha := "c3", message := "m3", parents := ["c2"] }

/-- The fetched anchor commit; its own parent zzz is outside the graph. -/
def commitP : Commit := { sha := "p0", message := "mp", parents := ["zzz"] }

/-- The merged pull request of the example branch. -/
def prFeature : PullRequest :=
  { login := "alice", headRef := "feature", mergedAt := some "2024-01-01",
    mergeCommitSha := some "mergesha", commitsUrl := "url\x7b/sha\x7d" }

/-- A closed pull request from a different branch. -/
def prOther : PullRequest :=
  { login := "alice", headRef := "other", mergedAt := some "2024-01-01",
    mergeCommitSha := none, commitsUrl := "u" }

/-- A world where every fetch succeeds. -/
def wHappy : World :=
  { releasesResp := (200,
      [{ name := "r1", tagName := "t1" }, { name := "r2", tagName := "t2" },
       { name := "r3", tagName := "t3" }, { name := "r4", tagName := "t4" }])
    repoResp := (200, { forksCount := some 5, stargazersCount := some 7 })
    contributorsResp := (200, ["alice", "bob", "carol"])
    pullsResp := (200, tallyExample)
    pullsClosedResp := (200, [prFeature])
    commitsFor := fun u => if u = "url" then (200, [commitC1, commitC2, commitC3]) else (404, [])
    commitFetch := fun s => if s = "p0" then some commitP else none }

/-- Like wHappy but the open-pulls listing replies 404. -/
def wPullsFail : World := { wHappy with pullsResp := (404, []) }

/-- Like wHappy but the single-commit fetch always faults. -/
def wParentFail : World := { wHappy with commitFetch := fun _ => none }

/-- Like wHappy but the commit listing of the pull request is empty. -/
def wEmptyCommits : World :=
  { wHappy with commitsFor := fun u => if u = "url" then (200, []) else (404, []) }

/-- Like wHappy but no closed pull request matches the branch. -/
def wNoMatch : World := { wHappy with pullsClosedResp := (200, [prOther]) }

/-- A one-commit branch whose anchor fetch returns a commit with the same
hash as the branch commit, making the anchor also the last commit. -/
def commitS : Commit := { sha := "cS", message := "mS", parents := ["p0"] }

/-- The anchor reply sharing the hash of commitS. -/
def commitPS : Commit := { sha := "cS", message := "mP", parents := [] }

/-- World realising the duplicate-edge case: anchor and last commit carry
the same hash. -/
def wDupAnchor : World :=
  { wHappy with
      commitsFor := fun u => if u = "url" then (200, [commitS]) else (404, [])
      commitFetch := fun s => if s = "p0" then some commitPS else none }

/-- A commit whose message contains a carriage return before any newline. -/
def commitR : Commit := { sha := "cR", message := "a\rb", parents := ["p0"] }

/-- Anchor commit for the carriage-return example. -/
def commitPR : Commit := { sha := "p0", message := "mp", parents := [] }

/-- World whose branch commit message holds a carriage return. -/
def wCarriage : World :=
  { wHappy with
      commitsFor := fun u => if u = "url" then (200, [commitR]) else (404, [])
      commitFetch := fun s => if s = "p0" then some commitPR else none }
/-- The graph the pipeline writes at wHappy. -/
def gHappy : Graph :=
  { nodes := [{ name := "p0", label := "mp" },
              { name := "c1", label := "m1" },
              { name := "c2", label := "m2" },
              { name := "c3", label := "m3" },
              { name := "mergesha", label := "Merged Commit: mergesh" }]
    edges := [{ src := "c3", dst := "mergesha" },
              { src := "p0", dst := "c1" },
              { src := "c1", dst := "c2" },
              { src := "c2", dst := "c3" },
              { src := "p0", dst := "mergesha" }] }

/-- The graph the pipeline writes at wDupAnchor: the anchor-to-merge edge
duplicates the last-commit-to-merge edge. -/
def gDup : Graph :=
  { nodes := [{ name := "cS", label := "mP" },
              { name := "cS", label := "mS" },
              { name := "mergesha", label := "Merged Commit: mergesh" }]
    edges := [{ src := "cS", dst := "mergesha" }, { src := "cS", dst := "mergesha" }] }

/-- The graph the pipeline writes at wCarriage. -/
def gCarriage : Graph :=
  { nodes := [{ name := "p0", label := "mp" },
              { name := "cR", label := "a" },
              { name := "mergesha", label := "Merged Commit: mergesh" }]
    edges := [{ src := "cR", dst := "mergesha" },
              { src := "p0", dst := "cR" },
              { src := "p0", dst := "mergesha" }] }
theorem tallyValue_tallyInsert (m : List (String × Nat)) (v u : String) :
    tallyValue (tallyInsert m v) u = tallyValue m u + (if v = u then 1 else 0) := by
  induction m with
  | nil =>
    by_cases h : v = u <;> simp [tallyInsert, tallyValue, tallyLookup, h]
  | cons kv rest ih =>
    obtain ⟨k, n⟩ := kv
    by_cases hkv : k = v
    · by_cases hku : k = u
      · have hvu : v = u := hkv.symm.trans hku
        simp [tallyInsert, tallyValue, tallyLookup, hkv, hku, hvu]
      · have hvu : ¬ v = u := fun hh => hku (hkv.trans hh)
        simp [tallyInsert, tallyValue, tallyLookup, hkv, hku, hvu]
    · by_cases hku : k = u
      · have hvu : ¬ v = u := fun hh => hkv (hku.trans hh.symm)
        have huv : ¬ u = v := fun hh => hvu hh.symm
        simp [tallyInsert, tallyValue, tallyLookup, hkv, hku, hvu, huv]
      · simpa [tallyInsert, tallyValue, tallyLookup, hkv, hku] using ih

theorem tallyValue_foldl (prs : List PullRequest) (m : List (String × Nat)) (u : String) :
    tallyValue (prs.foldl (fun acc pr => tallyInsert acc pr.login) m) u =
      tallyValue m u + prCountOf u prs := by
  induction prs generalizing m with
  | nil => simp [prCountOf]
  | cons pr rest ih =>
    rw [List.foldl_cons, ih, tallyValue_tallyInsert]
    by_cases h : pr.login = u
    · simp only [prCountOf, List.filter_cons, h]
      simp
      omega
    · simp only [prCountOf, List.filter_cons, h]
      simp [h]

theorem mem_insertDesc (x : String × Nat) (l : List (String × Nat)) :
    ∀ z ∈ insertDesc x l, z = x ∨ z ∈ l := by
  induction l with
  | nil =>
    intro z hz
    simpa [insertDesc] using hz
  | cons y ys ih =>
    intro z hz
    rw [insertDesc] at hz
    by_cases hle : y.2 ≤ x.2
    · rw [if_pos hle] at hz
      simp only [List.mem_cons] at hz ⊢
      tauto
    · rw [if_neg hle] at hz
      simp only [List.mem_cons] at hz ⊢
      rcases hz with hz | hz
      · tauto
      · rcases ih z hz with h1 | h1
        · tauto
        · tauto

theorem pairwise_insertDesc (x : String × Nat) (l : List (String × Nat))
    (h : List.Pairwise (fun a b => b.2 ≤ a.2) l) :
    List.Pairwise (fun a b => b.2 ≤ a.2) (insertDesc x l) := by
  induction l with
  | nil => simp [insertDesc]
  | cons y ys ih =>
    rw [insertDesc]
    rw [List.pairwise_cons] at h
    obtain ⟨hy, hys⟩ := h
    by_cases hle : y.2 ≤ x.2
    · rw [if_pos hle]
      refine List.Pairwise.cons ?_ (List.Pairwise.cons hy hys)
      intro z hz
      simp only [List.mem_cons] at hz
      rcases hz with hz | hz
      · rw [hz]; exact hle
      · exact le_trans (hy z hz) hle
    · rw [if_neg hle]
      refine List.Pairwise.cons ?_ (ih hys)
      intro z hz
      rcases mem_insertDesc x ys z hz with hz | hz
      · rw [hz]; omega
      · exact hy z hz

theorem pairwise_sortDescStable (l : List (String × Nat)) :
    List.Pairwise (fun a b => b.2 ≤ a.2) (sortDescStable l) := by
  induction l with
  | nil => simp [sortDescStable]
  | cons x xs ih => exact pairwise_insertDesc x (sortDescStable xs) ih

theorem dictLookup_dictInsert (d : List (String × Node)) (k u : String) (v : Node) :
    dictLookup (dictInsert d k v) u = if k = u then some v else dictLookup d u := by
  induction d with
  | nil =>
    by_cases h : k = u <;> simp [dictInsert, dictLookup, h]
  | cons kv rest ih =>
    obtain ⟨k0, v0⟩ := kv
    by_cases hk : k0 = k
    · by_cases hu : k = u
      · have hk0u : k0 = u := hk.trans hu
        simp [dictInsert, dictLookup, hk, hu, hk0u]
      · have hk0u : ¬ k0 = u := fun hh => hu (hk.symm.trans hh)
        simp [dictInsert, dictLookup, hk, hu, hk0u]
    · by_cases hu : k0 = u
      · have hku : ¬ k = u := fun hh => hk (hu.trans hh.symm)
        have huk : ¬ u = k := fun hh => hku hh.symm
        simp [dictInsert, dictLookup, hk, hu, hku, huk]
      · simp [dictInsert, dictLookup, hk, hu, ih]

theorem isSome_dictLookup_dictInsert (d : List (String × Node)) (k u : String) (v : Node)
    (h : (dictLookup d u).isSome) : (dictLookup (dictInsert d k v) u).isSome := by
  rw [dictLookup_dictInsert]
  by_cases hk : k = u
  · simp [hk]
  · simpa [hk] using h

theorem dictNamed_dictInsert (d : List (String × Node)) (k : String) (v : Node)
    (hd : dictNamed d) (hv : v.name = k) : dictNamed (dictInsert d k v) := by
  induction d with
  | nil =>
    intro kv hkv
    simp only [dictInsert, List.mem_singleton] at hkv
    rw [hkv]
    exact hv
  | cons kv0 rest ih =>
    obtain ⟨k0, v0⟩ := kv0
    have hd0 : v0.name = k0 := hd (k0, v0) (by simp)
    have hdrest : dictNamed rest := fun kv hkv => hd kv (by simp [hkv])
    intro kv hkv
    rw [dictInsert] at hkv
    by_cases hk : k0 = k
    · rw [if_pos hk] at hkv
      rcases List.mem_cons.mp hkv with h1 | h1
      · rw [h1]
        rw [hk]
        exact hv
      · exact hd kv (by simp [h1])
    · rw [if_neg hk] at hkv
      rcases List.mem_cons.mp hkv with h1 | h1
      · rw [h1]
        exact hd0
      · exact ih hdrest kv h1

theorem dictNamed_lookup {d : List (String × Node)} {k : String} {n : Node}
    (hd : dictNamed d) (h : dictLookup d k = some n) : n.name = k := by
  induction d with
  | nil => simp [dictLookup] at h
  | cons kv rest ih =>
    obtain ⟨k0, v0⟩ := kv
    rw [dictLookup] at h
    by_cases hk : k0 = k
    · rw [if_pos hk] at h
      have : v0 = n := by injection h
      have h0 : v0.name = k0 := hd (k0, v0) (by simp)
      rw [← this, h0, hk]
    · rw [if_neg hk] at h
      exact ih (fun kv hkv => hd kv (by simp [hkv])) h

theorem dictLookup_mem {d : List (String × Node)} {k : String} {n : Node}
    (h : dictLookup d k = some n) : (k, n) ∈ d := by
  induction d with
  | nil => simp [dictLookup] at h
  | cons kv rest ih =>
    obtain ⟨k0, v0⟩ := kv
    rw [dictLookup] at h
    by_cases hk : k0 = k
    · rw [if_pos hk] at h
      have : v0 = n := by injection h
      simp [← hk, ← this]
    · rw [if_neg hk] at h
      exact List.mem_cons_of_mem _ (ih h)

theorem mem_dictInsert (d : List (String × Node)) (k : String) (v : Node) :
    ∀ kv ∈ dictInsert d k v, kv ∈ d ∨ kv = (k, v) := by
  induction d with
  | nil =>
    intro kv hkv
    simp only [dictInsert, List.mem_singleton] at hkv
    exact Or.inr hkv
  | cons kv0 rest ih =>
    obtain ⟨k0, v0⟩ := kv0
    intro kv hkv
    rw [dictInsert] at hkv
    by_cases hk : k0 = k
    · rw [if_pos hk] at hkv
      rcases List.mem_cons.mp hkv with h1 | h1
      · rw [hk] at h1
        exact Or.inr h1
      · exact Or.inl (by simp [h1])
    · rw [if_neg hk] at hkv
      rcases List.mem_cons.mp hkv with h1 | h1
      · exact Or.inl (by simp [h1])
      · rcases ih kv h1 with h2 | h2
        · exact Or.inl (by simp [h2])
        · exact Or.inr h2

theorem buildNodes_ok (ocs : List (Option Commit))
    (h : ∀ oc ∈ ocs, ∃ c, oc = some c ∧ pythonSplitlines c.message ≠ []) :
    ∀ acc dict, ∃ ns d, buildNodes ocs acc dict = Except.ok (ns, d) := by
  induction ocs with
  | nil =>
    intro acc dict
    exact ⟨acc, dict, rfl⟩
  | cons oc rest ih =>
    intro acc dict
    obtain ⟨c, hoc, hsp⟩ := h oc (List.mem_cons_self oc rest)
    subst hoc
    cases hms : pythonSplitlines c.message with
    | nil => exact absurd hms hsp
    | cons line t =>
      obtain ⟨ns, d, hbd⟩ :=
        ih (fun oc hoc => h oc (List.mem_cons_of_mem _ hoc))
          (acc ++ [Node.mk c.sha line]) (dictInsert dict c.sha (Node.mk c.sha line))
      refine ⟨ns, d, ?_⟩
      rw [buildNodes, hms]
      exact hbd

theorem buildNodes_acc_sub (ocs : List (Option Commit)) :
    ∀ acc dict ns d, buildNodes ocs acc dict = Except.ok (ns, d) →
      ∀ x ∈ acc, x ∈ ns := by
  induction ocs with
  | nil =>
    intro acc dict ns d h x hx
    simp only [buildNodes, Except.ok.injEq, Prod.mk.injEq] at h
    rw [← h.1]
    exact hx
  | cons oc rest ih =>
    intro acc dict ns d h x hx
    cases oc with
    | none => simp [buildNodes] at h
    | some c =>
      rw [buildNodes] at h
      split at h
      · exact absurd h (by simp)
      · exact ih _ _ _ _ h x (by simp [hx])

theorem buildNodes_mem_node (ocs : List (Option Commit)) :
    ∀ acc dict ns d, buildNodes ocs acc dict = Except.ok (ns, d) →
      ∀ c, some c ∈ ocs →
        ∃ line t, pythonSplitlines c.message = line :: t ∧ Node.mk c.sha line ∈ ns := by
  induction ocs with
  | nil =>
    intro acc dict ns d h c hc
    simp at hc
  | cons oc rest ih =>
    intro acc dict ns d h c hc
    cases oc with
    | none => simp [buildNodes] at h
    | some c0 =>
      rw [buildNodes] at h
      split at h
      · exact absurd h (by simp)
      · rename_i line t heq
        rcases List.mem_cons.mp hc with h1 | h1
        · have hcc : c = c0 := by injection h1
          subst hcc
          refine ⟨line, t, heq, ?_⟩
          exact buildNodes_acc_sub rest _ _ _ _ h (Node.mk c.sha line) (by simp)
        · exact ih _ _ _ _ h c h1

theorem buildNodes_lookup_mono (ocs : List (Option Commit)) :
    ∀ acc dict ns d, buildNodes ocs acc dict = Except.ok (ns, d) →
      ∀ u, (dictLookup dict u).isSome → (dictLookup d u).isSome := by
  induction ocs with
  | nil =>
    intro acc dict ns d h u hu
    simp only [buildNodes, Except.ok.injEq, Prod.mk.injEq] at h
    rw [← h.2]
    exact hu
  | cons oc rest ih =>
    intro acc dict ns d h u hu
    cases oc with
    | none => simp [buildNodes] at h
    | some c =>
      rw [buildNodes] at h
      split at h
      · exact absurd h (by simp)
      · exact ih _ _ _ _ h u (isSome_dictLookup_dictInsert _ _ _ _ hu)

theorem buildNodes_lookup_sha (ocs : List (Option Commit)) :
    ∀ acc dict ns d, buildNodes ocs acc dict = Except.ok (ns, d) →
      ∀ c, some c ∈ ocs → (dictLookup d c.sha).isSome := by
  induction ocs with
  | nil =>
    intro acc dict ns d h c hc
    simp at hc
  | cons oc rest ih =>
    intro acc dict ns d h c hc
    cases oc with
    | none => simp [buildNodes] at h
    | some c0 =>
      rw [buildNodes] at h
      split at h
      · exact absurd h (by simp)
      · rename_i line t heq
        rcases List.mem_cons.mp hc with h1 | h1
        · have hcc : c = c0 := by injection h1
          subst hcc
          refine buildNodes_lookup_mono rest _ _ _ _ h c.sha ?_
          rw [dictLookup_dictInsert]
          simp
        · exact ih _ _ _ _ h c h1

theorem buildNodes_named (ocs : List (Option Commit)) :
    ∀ acc dict ns d, buildNodes ocs acc dict = Except.ok (ns, d) →
      dictNamed dict → dictNamed d := by
  induction ocs with
  | nil =>
    intro acc dict ns d h hd
    simp only [buildNodes, Except.ok.injEq, Prod.mk.injEq] at h
    rw [← h.2]
    exact hd
  | cons oc rest ih =>
    intro acc dict ns d h hd
    cases oc with
    | none => simp [buildNodes] at h
    | some c =>
      rw [buildNodes] at h
      split at h
      · exact absurd h (by simp)
      · exact ih _ _ _ _ h (dictNamed_dictInsert _ _ _ hd rfl)

theorem buildNodes_dict_mem (ocs : List (Option Commit)) :
    ∀ acc dict ns d, buildNodes ocs acc dict = Except.ok (ns, d) →
      (∀ kv ∈ dict, (kv : String × Node).2 ∈ acc) →
      ∀ kv ∈ d, (kv : String × Node).2 ∈ ns := by
  induction ocs with
  | nil =>
    intro acc dict ns d h hd kv hkv
    simp only [buildNodes, Except.ok.injEq, Prod.mk.injEq] at h
    rw [← h.1]
    exact hd kv (h.2 ▸ hkv)
  | cons oc rest ih =>
    intro acc dict ns d h hd kv hkv
    cases oc with
    | none => simp [buildNodes] at h
    | some c =>
      rw [buildNodes] at h
      split at h
      · exact absurd h (by simp)
      · rename_i line t heq
        refine ih _ _ _ _ h ?_ kv hkv
        intro kv2 hkv2
        rcases mem_dictInsert _ _ _ kv2 hkv2 with h1 | h1
        · exact List.mem_append_left _ (hd kv2 h1)
        · rw [h1]
          simp

theorem parentEdges_ok (dict : List (String × Node)) (sha : String)
    (hs : (dictLookup dict sha).isSome) :
    ∀ ps, ∃ es, parentEdges dict sha ps = Except.ok es := by
  intro ps
  induction ps with
  | nil => exact ⟨[], rfl⟩
  | cons p ps ih =>
    obtain ⟨es, hes⟩ := ih
    cases hp : dictLookup dict p with
    | none =>
      refine ⟨es, ?_⟩
      rw [parentEdges, hp]
      exact hes
    | some pn =>
      obtain ⟨sn, hsn⟩ := Option.isSome_iff_exists.mp hs
      refine ⟨Edge.mk pn.name sn.name :: es, ?_⟩
      rw [parentEdges, hp, hsn, hes]

theorem parentEdges_mem (dict : List (String × Node)) (sha : String) :
    ∀ ps es, parentEdges dict sha ps = Except.ok es →
      ∀ p ∈ ps, ∀ pn sn, dictLookup dict p = some pn → dictLookup dict sha = some sn →
        Edge.mk pn.name sn.name ∈ es := by
  intro ps
  induction ps with
  | nil =>
    intro es h p hp
    simp at hp
  | cons q ps ih =>
    intro es h p hp pn sn hpn hsn
    rw [parentEdges] at h
    split at h
    · rename_i heq
      rcases List.mem_cons.mp hp with h1 | h1
      · subst h1
        rw [hpn] at heq
        exact absurd heq (by simp)
      · exact ih _ h p h1 pn sn hpn hsn
    · rename_i qn heq
      split at h
      · rename_i heq2
        rw [hsn] at heq2
        exact absurd heq2 (by simp)
      · rename_i sn2 heq2
        split at h
        · exact absurd h (by simp)
        · rename_i es2 heq3
          have hes : Edge.mk qn.name sn2.name :: es2 = es := by injection h
          have hsn2 : sn2 = sn := by
            have h2 : some sn = some sn2 := hsn.symm.trans heq2
            injection h2 with h3
            exact h3.symm
          rcases List.mem_cons.mp hp with h1 | h1
          · subst h1
            have hqn : qn = pn := by
              have h2 : some pn = some qn := hpn.symm.trans heq
              injection h2 with h3
              exact h3.symm
            rw [← hes, hqn, hsn2]
            simp
          · rw [← hes]
            exact List.mem_cons_of_mem _ (ih _ heq3 p h1 pn sn hpn hsn)

theorem parentEdges_sound (dict : List (String × Node)) (sha : String) :
    ∀ ps es, parentEdges dict sha ps = Except.ok es →
      ∀ e ∈ es, (∃ kv, kv ∈ dict ∧ (kv : String × Node).2.name = e.src) ∧
        (∃ kv, kv ∈ dict ∧ (kv : String × Node).2.name = e.dst) := by
  intro ps
  induction ps with
  | nil =>
    intro es h e he
    have h0 : ([] : List Edge) = es := by injection h
    rw [← h0] at he
    simp at he
  | cons q ps ih =>
    intro es h e he
    rw [parentEdges] at h
    split at h
    · exact ih _ h e he
    · rename_i pn hpn
      split at h
      · exact absurd h (by simp)
      · rename_i sn hsn
        split at h
        · exact absurd h (by simp)
        · rename_i es2 heq
          have hes : Edge.mk pn.name sn.name :: es2 = es := by injection h
          rw [← hes] at he
          rcases List.mem_cons.mp he with h1 | h1
          · subst h1
            constructor
            · exact ⟨(q, pn), dictLookup_mem hpn, rfl⟩
            · exact ⟨(sha, sn), dictLookup_mem hsn, rfl⟩
          · exact ih _ heq e h1

theorem commitEdges_ok (dict : List (String × Node)) :
    ∀ ocs, (∀ oc ∈ ocs, ∃ c, oc = some c ∧ (dictLookup dict c.sha).isSome) →
      ∃ es, commitEdges dict ocs = Except.ok es := by
  intro ocs
  induction ocs with
  | nil =>
    intro h
    exact ⟨[], rfl⟩
  | cons oc rest ih =>
    intro h
    obtain ⟨c, hoc, hs⟩ := h oc (List.mem_cons_self oc rest)
    subst hoc
    obtain ⟨es1, hes1⟩ := parentEdges_ok dict c.sha hs c.parents
    obtain ⟨es2, hes2⟩ := ih (fun oc hoc => h oc (List.mem_cons_of_mem _ hoc))
    refine ⟨es1 ++ es2, ?_⟩
    rw [commitEdges, hes1, hes2]

theorem commitEdges_mem (dict : List (String × Node)) :
    ∀ ocs es, commitEdges dict ocs = Except.ok es →
      ∀ c, some c ∈ ocs → ∀ p ∈ c.parents, ∀ pn sn,
        dictLookup dict p = some pn → dictLookup dict c.sha = some sn →
        Edge.mk pn.name sn.name ∈ es := by
  intro ocs
  induction ocs with
  | nil =>
    intro es h c hc
    simp at hc
  | cons oc rest ih =>
    intro es h c hc p hp pn sn hpn hsn
    cases oc with
    | none => simp [commitEdges] at h
    | some c0 =>
      rw [commitEdges] at h
      split at h
      · exact absurd h (by simp)
      · rename_i es1 hes1
        split at h
        · exact absurd h (by simp)
        · rename_i es2 hes2
          have : es1 ++ es2 = es := by injection h
          rw [← this]
          rcases List.mem_cons.mp hc with h1 | h1
          · have hcc : c = c0 := by injection h1
            subst hcc
            exact List.mem_append_left _ (parentEdges_mem dict c.sha c.parents es1 hes1 p hp pn sn hpn hsn)
          · exact List.mem_append_right _ (ih _ hes2 c h1 p hp pn sn hpn hsn)

theorem commitEdges_sound (dict : List (String × Node)) :
    ∀ ocs es, commitEdges dict ocs = Except.ok es →
      ∀ e ∈ es, (∃ kv, kv ∈ dict ∧ (kv : String × Node).2.name = e.src) ∧
        (∃ kv, kv ∈ dict ∧ (kv : String × Node).2.name = e.dst) := by
  intro ocs
  induction ocs with
  | nil =>
    intro es h e he
    have : ([] : List Edge) = es := by injection h
    rw [← this] at he
    simp at he
  | cons oc rest ih =>
    intro es h e he
    cases oc with
    | none => simp [commitEdges] at h
    | some c =>
      rw [commitEdges] at h
      split at h
      · exact absurd h (by simp)
      · rename_i es1 hes1
        split at h
        · exact absurd h (by simp)
        · rename_i es2 hes2
          have : es1 ++ es2 = es := by injection h
          rw [← this] at he
          rcases List.mem_append.mp he with h1 | h1
          · exact parentEdges_sound dict c.sha c.parents es1 hes1 e h1
          · exact ih _ hes2 e h1

theorem scanPulls_no_match (w : World) (b : String) :
    ∀ prs, (∀ pr ∈ prs, ¬(pr.headRef = b ∧ pr.mergedAt.isSome)) →
      scanPulls w b prs =
        ((none, none), [(Level.warning, "No merged pull request found for branch " ++ b)]) := by
  intro prs
  induction prs with
  | nil =>
    intro h
    rfl
  | cons pr rest ih =>
    intro h
    rw [scanPulls, if_neg (h pr (List.mem_cons_self pr rest))]
    exact ih (fun pr hpr => h pr (List.mem_cons_of_mem _ hpr))

/-- C1: for the releases, repo-info and contributors fetches a non-200 reply
is indeed absorbed into an empty or zero fallback, but the pull-request
fallback branch never binds the local variable pulls, so the tally loop then
raises an UnboundLocalError and get_github_data does not return: at a world
whose open-pulls listing replies 404 (all other fetches fine), the call
raises instead of returning a summary with pulls_count = 0. -/
theorem get_github_data_pulls_fetch_failure_raises :
    wPullsFail.pullsResp.1 = 404 ∧
    (get_github_data wPullsFail).1 = Except.error PyError.nameError :=
  ⟨rfl, rfl⟩

/-- C10: get_parent_commit dereferences parents[0] before the guarded
request, and the handler only catches request faults, so a commit with no
parents makes it raise an IndexError instead of returning the null
fallback, whatever the network would have replied. -/
theorem get_parent_commit_root_raises (w : World) (c : Commit)
    (h : c.parents = []) :
    (get_parent_commit w c).1 = Except.error PyError.indexError := by
  simp [get_parent_commit, h]

/-- Witness for C10 at a concrete parentless commit. -/
theorem get_parent_commit_root_raises_witness :
    (Commit.mk "root" "m" []).parents = [] ∧
    (get_parent_commit wHappy (Commit.mk "root" "m" [])).1 =
      Except.error PyError.indexError :=
  ⟨rfl, get_parent_commit_root_raises wHappy (Commit.mk "root" "m" []) rfl⟩

/-- C9: when the matched pull request's commit listing is fetched
successfully but is empty, create_commit_graph takes the same guard as a
fetch failure: it logs the error, returns None and writes no file — the
guard tests emptiness, not only nullness. -/
theorem empty_commit_list_aborts (w : World) (b out : String)
    (mh : Option String) (lg : List LogEntry)
    (h : get_commits_for_branch w b = ((some [], mh), lg)) :
    create_commit_graph w b out =
      (Except.ok none,
        lg ++ [(Level.error,
          "Failed to fetch commits for branch " ++ b ++ ". Exiting.")]) := by
  simp [create_commit_graph, h]

/-- Witness for C9: at wEmptyCommits the scan finds the merged pull request
and its commit listing replies 200 with an empty body. -/
theorem empty_commit_list_aborts_witness :
    get_commits_for_branch wEmptyCommits "feature" = ((some [], some "mergesha"), []) ∧
    create_commit_graph wEmptyCommits "feature" "g.dot" =
      (Except.ok none,
        [] ++ [(Level.error,
          "Failed to fetch commits for branch " ++ "feature" ++ ". Exiting.")]) :=
  ⟨rfl, empty_commit_list_aborts wEmptyCommits "feature" "g.dot" (some "mergesha") [] rfl⟩

/-- C4: when the closed-pulls listing succeeds but no pull request has the
requested head branch together with a non-null merge timestamp, the graph
pipeline returns None (so writes no file) and the condition is logged as a
warning; nothing is raised. -/
theorem no_matching_pr_yields_no_graph (w : World) (b out : String)
    (h200 : w.pullsClosedResp.1 = 200)
    (hnone : ∀ pr ∈ w.pullsClosedResp.2, ¬(pr.headRef = b ∧ pr.mergedAt.isSome)) :
    (create_commit_graph w b out).1 = Except.ok none ∧
      (Level.warning, "No merged pull request found for branch " ++ b) ∈
        (create_commit_graph w b out).2 := by
  have hg : get_commits_for_branch w b =
      ((none, none),
        [(Level.warning, "No merged pull request found for branch " ++ b)]) := by
    rw [get_commits_for_branch, if_pos h200]
    exact scanPulls_no_match w b w.pullsClosedResp.2 hnone
  constructor
  · simp [create_commit_graph, hg]
  · simp [create_commit_graph, hg]

/-- Witness for C4 at wNoMatch, whose only closed pull request is for
another branch. -/
theorem no_matching_pr_yields_no_graph_witness :
    (create_commit_graph wNoMatch "feature" "g.dot").1 = Except.ok none ∧
      (Level.warning, "No merged pull request found for branch " ++ "feature") ∈
        (create_commit_graph wNoMatch "feature" "g.dot").2 :=
  no_matching_pr_yields_no_graph wNoMatch "feature" "g.dot" rfl (by decide)

/-- C8: whenever get_github_data returns a summary and the releases fetch
replied 200, the summary's releases are exactly the first three entries of
the reply in the API's order, hence at most three. -/
theorem releases_at_most_three (w : World) (s : Summary) (lg : List LogEntry)
    (h : get_github_data w = (Except.ok s, lg))
    (h200 : w.releasesResp.1 = 200) :
    s.releases = w.releasesResp.2.take 3 ∧ s.releases.length ≤ 3 := by
  by_cases hp : w.pullsResp.1 = 200
  · simp only [get_github_data, hp, if_true, h200] at h
    rw [Prod.mk.injEq] at h
    have hs := h.1
    rw [Except.ok.injEq] at hs
    rw [← hs]
    exact ⟨rfl, by simp [List.length_take_le]⟩
  · simp only [get_github_data, hp, if_false] at h
    rw [Prod.mk.injEq] at h
    exact absurd h.1 (by simp)

/-- Witness for C8 at wHappy, whose releases reply has four entries. -/
theorem releases_at_most_three_witness :
    wHappy.releasesResp.1 = 200 ∧
    (Summary.mk
        [Release.mk "r1" "t1", Release.mk "r2" "t2", Release.mk "r3" "t3"]
        5 7 3 5 [("alice", 2), ("bob", 2), ("carol", 1)]).releases =
      wHappy.releasesResp.2.take 3 ∧
    (Summary.mk
        [Release.mk "r1" "t1", Release.mk "r2" "t2", Release.mk "r3" "t3"]
        5 7 3 5 [("alice", 2), ("bob", 2), ("carol", 1)]).releases.length ≤ 3 :=
  ⟨rfl,
    (releases_at_most_three wHappy
      (Summary.mk
        [Release.mk "r1" "t1", Release.mk "r2" "t2", Release.mk "r3" "t3"]
        5 7 3 5 [("alice", 2), ("bob", 2), ("carol", 1)]) [] rfl rfl).1,
    (releases_at_most_three wHappy
      (Summary.mk
        [Release.mk "r1" "t1", Release.mk "r2" "t2", Release.mk "r3" "t3"]
        5 7 3 5 [("alice", 2), ("bob", 2), ("carol", 1)]) [] rfl rfl).2⟩

/-- C5: the tally maps every author login to the number of pull requests it
authored; the ranking get_github_data returns is that tally sorted
descending by count; the sort is stable on the concrete example of the
specification, counts alice 2, bob 2, carol 1 encountered in that order. -/
theorem contributors_ranking_correct :
    (∀ prs u, tallyValue (contributorsPulls prs) u = prCountOf u prs) ∧
    (∀ prs, List.Pairwise (fun a b => b.2 ≤ a.2) (sortDescStable (contributorsPulls prs))) ∧
    (∀ w s lg, get_github_data w = (Except.ok s, lg) →
      s.contributorsPullsSorted = sortDescStable (contributorsPulls w.pullsResp.2)) ∧
    sortDescStable (contributorsPulls tallyExample) =
      [("alice", 2), ("bob", 2), ("carol", 1)] := by
  refine ⟨?_, ?_, ?_, ?_⟩
  · intro prs u
    have h := tallyValue_foldl prs [] u
    simpa [contributorsPulls, tallyValue, tallyLookup] using h
  · intro prs
    exact pairwise_sortDescStable _
  · intro w s lg h
    by_cases hp : w.pullsResp.1 = 200
    · simp only [get_github_data, hp, if_true] at h
      rw [Prod.mk.injEq] at h
      have hs := h.1
      rw [Except.ok.injEq] at hs
      rw [← hs]
    · simp only [get_github_data, hp, if_false] at h
      rw [Prod.mk.injEq] at h
      exact absurd h.1 (by simp)
  · rfl

/-- Witness for C5: the third, hypothesis-bearing part applied at wHappy. -/
theorem contributors_ranking_correct_witness :
    (Summary.mk
        [Release.mk "r1" "t1", Release.mk "r2" "t2", Release.mk "r3" "t3"]
        5 7 3 5 [("alice", 2), ("bob", 2), ("carol", 1)]).contributorsPullsSorted =
      sortDescStable (contributorsPulls wHappy.pullsResp.2) :=
  contributors_ranking_correct.2.2.1 wHappy
    (Summary.mk
      [Release.mk "r1" "t1", Release.mk "r2" "t2", Release.mk "r3" "t3"]
      5 7 3 5 [("alice", 2), ("bob", 2), ("carol", 1)]) [] rfl

/-- C2 counterexample: at wParentFail the anchor fetch yields the null
placeholder, and create_commit_graph then raises a TypeError while building
nodes — the construction is not skipped and no warning is produced, the
pipeline aborts with an exception. -/
theorem null_anchor_raises_counterexample :
    (get_parent_commit wParentFail commitC1).1 = Except.ok none ∧
    (create_commit_graph wParentFail "feature" "g.dot").1 =
      Except.error PyError.typeError :=
  ⟨rfl, rfl⟩

/-- C2 amended: when the anchor fetch fails, the null placeholder is
prepended to the commit sequence, and the node loop dereferences it and
raises a TypeError, aborting the graph pipeline with no file written. -/
theorem create_commit_graph_null_anchor_raises (w : World) (b out : String)
    (c0 : Commit) (cs : List Commit) (mh : Option String)
    (lg lg2 : List LogEntry)
    (h1 : get_commits_for_branch w b = ((some (c0 :: cs), mh), lg))
    (h2 : get_parent_commit w c0 = (Except.ok none, lg2)) :
    (create_commit_graph w b out).1 = Except.error PyError.typeError := by
  simp [create_commit_graph, h1, h2, buildNodes]

/-- Witness for the amended C2 at wParentFail. -/
theorem create_commit_graph_null_anchor_raises_witness :
    get_commits_for_branch wParentFail "feature" =
      ((some (commitC1 :: [commitC2, commitC3]), some "mergesha"), []) ∧
    get_parent_commit wParentFail commitC1 =
      (Except.ok none,
        [(Level.info, "Fetching commit information for commit " ++ "c1"),
         (Level.error, "Failed to fetch commit information for commit " ++ "c1")]) ∧
    (create_commit_graph wParentFail "feature" "g.dot").1 =
      Except.error PyError.typeError :=
  ⟨rfl, rfl,
    create_commit_graph_null_anchor_raises wParentFail "feature" "g.dot"
      commitC1 [commitC2, commitC3] (some "mergesha") []
      [(Level.info, "Fetching commit information for commit " ++ "c1"),
       (Level.error, "Failed to fetch commit information for commit " ++ "c1")]
      rfl rfl⟩

theorem finishGraph_ok (logPfx : List LogEntry) (nodeList : List Node)
    (dict : List (String × Node)) (allCommits : List (Option Commit))
    (mnOpt : Option Node) (mergeEdges : List Edge) (outputFile : String)
    (g : Graph) (lg : List LogEntry)
    (h : finishGraph logPfx nodeList dict allCommits mnOpt mergeEdges outputFile =
      (Except.ok (some g), lg)) :
    ∃ mn pes fc rest fn,
      mnOpt = some mn ∧
      commitEdges dict allCommits = Except.ok pes ∧
      allCommits = some fc :: rest ∧
      dictLookup dict fc.sha = some fn ∧
      g = { nodes := nodeList ++ [mn],
            edges := mergeEdges ++ pes ++ [Edge.mk fn.name mn.name] } := by
  rw [finishGraph] at h
  split at h
  · exact absurd h (by simp)
  · rename_i pes hpes
    split at h
    · exact absurd h (by simp)
    · exact absurd h (by simp)
    · rename_i fc rest
      split at h
      · exact absurd h (by simp)
      · rename_i fn hfn
        split at h
        · exact absurd h (by simp)
        · rename_i mnGen mn
          rw [Prod.mk.injEq] at h
          have hg := h.1
          rw [Except.ok.injEq, Option.some.injEq] at hg
          exact ⟨mn, pes, fc, rest, fn, rfl, hpes, rfl, hfn, hg.symm⟩

theorem create_commit_graph_ok_inv (w : World) (b out : String) (g : Graph)
    (lg : List LogEntry)
    (h : create_commit_graph w b out = (Except.ok (some g), lg)) :
    ∃ (c0 : Commit) (cs : List Commit) (pc : Option Commit) (mh : String)
      (nodeList : List Node) (dict : List (String × Node))
      (mergeEdges : List Edge) (pes : List Edge) (fn : Node),
      (get_commits_for_branch w b).1.1 = some (c0 :: cs) ∧
      (get_parent_commit w c0).1 = Except.ok pc ∧
      buildNodes (pc :: (c0 :: cs).map some) [] [] = Except.ok (nodeList, dict) ∧
      (get_commits_for_branch w b).1.2 = some mh ∧
      (∀ e ∈ mergeEdges,
        (∃ kv, kv ∈ dict ∧ (kv : String × Node).2.name = e.src) ∧ e.dst = mh) ∧
      commitEdges dict (pc :: (c0 :: cs).map some) = Except.ok pes ∧
      (∃ fc, pc = some fc ∧ (dictLookup dict fc.sha).isSome) ∧
      g = { nodes := nodeList ++ [Node.mk mh ("Merged Commit: " ++ take7 mh)],
            edges := mergeEdges ++ pes ++ [Edge.mk fn.name mh] } ∧
      (∃ kv, kv ∈ dict ∧ (kv : String × Node).2.name = fn.name) := by
  simp only [create_commit_graph] at h
  split at h
  · exact absurd h (by simp)
  · exact absurd h (by simp)
  · rename_i c0 cs heq1
    split at h
    · exact absurd h (by simp)
    · rename_i pc heq2
      split at h
      · exact absurd h (by simp)
      · rename_i nodeList dict heq3
        split at h
        · rename_i mh heq4
          split at h
          · exact absurd h (by simp)
          · exact absurd h (by simp)
          · rename_i lastC heq5
            split at h
            · rename_i lastNode heq6
              obtain ⟨mn, pes, fc, rest, fn, hmn, hpes, hac, hfn, hg⟩ :=
                finishGraph_ok _ _ _ _ _ _ _ _ _ h
              have hmn2 : mn = Node.mk mh ("Merged Commit: " ++ take7 mh) := by
                injection hmn with h2
                exact h2.symm
              have hpc : pc = some fc := by injection hac
              refine ⟨c0, cs, pc, mh, nodeList, dict, [Edge.mk lastNode.name mh], pes, fn,
                heq1, heq2, heq3, heq4, ?_, hpes, ⟨fc, hpc, by rw [hfn]; rfl⟩, ?_, ?_⟩
              · intro e he
                simp only [List.mem_singleton] at he
                constructor
                · exact ⟨(lastC.sha, lastNode), dictLookup_mem heq6, by rw [he]⟩
                · rw [he]
              · rw [hmn2] at hg
                exact hg
              · exact ⟨(fc.sha, fn), dictLookup_mem hfn, rfl⟩
            · rename_i heq6
              obtain ⟨mn, pes, fc, rest, fn, hmn, hpes, hac, hfn, hg⟩ :=
                finishGraph_ok _ _ _ _ _ _ _ _ _ h
              have hmn2 : mn = Node.mk mh ("Merged Commit: " ++ take7 mh) := by
                injection hmn with h2
                exact h2.symm
              have hpc : pc = some fc := by injection hac
              refine ⟨c0, cs, pc, mh, nodeList, dict, [], pes, fn,
                heq1, heq2, heq3, heq4, ?_, hpes, ⟨fc, hpc, by rw [hfn]; rfl⟩, ?_, ?_⟩
              · intro e he
                simp at he
              · rw [hmn2] at hg
                exact hg
              · exact ⟨(fc.sha, fn), dictLookup_mem hfn, rfl⟩
        · obtain ⟨mn, pes, fc, rest, fn, hmn, hpes, hac, hfn, hg⟩ :=
            finishGraph_ok _ _ _ _ _ _ _ _ _ h
          exact absurd hmn (by simp)

/-- C6: in every graph the pipeline actually writes, both endpoints of every
edge name nodes present in the node set; and a parent hash absent from the
built nodes (zzz, the anchor's own parent at wHappy) is dropped without
aborting the run, not inserted as a dangling edge. -/
theorem commit_graph_edges_closed :
    (∀ w b out g lg, create_commit_graph w b out = (Except.ok (some g), lg) →
      ∀ e ∈ g.edges, edgeClosed g e) ∧
    ((create_commit_graph wHappy "feature" "g.dot").1 = Except.ok (some gHappy) ∧
      Edge.mk "zzz" "p0" ∉ gHappy.edges) := by
  constructor
  · intro w b out g lg h e he
    obtain ⟨c0, cs, pc, mh, nodeList, dict, mergeEdges, pes, fn,
      h1, h2, hbn, h4, hme, hce, ⟨fc, hpc, hfc⟩, hg, hfnk⟩ :=
      create_commit_graph_ok_inv w b out g lg h
    have hdmem : ∀ kv ∈ dict, (kv : String × Node).2 ∈ nodeList :=
      buildNodes_dict_mem _ _ _ _ _ hbn (by intro kv hkv; simp at hkv)
    rw [hg] at he
    rw [hg]
    have hmnode : Node.mk mh ("Merged Commit: " ++ take7 mh) ∈
        nodeList ++ [Node.mk mh ("Merged Commit: " ++ take7 mh)] := by simp
    rcases List.mem_append.mp he with h5 | h5
    · rcases List.mem_append.mp h5 with h6 | h6
      · obtain ⟨⟨kv, hkv, hsrc⟩, hdst⟩ := hme e h6
        constructor
        · exact ⟨kv.2, List.mem_append_left _ (hdmem kv hkv), hsrc⟩
        · exact ⟨Node.mk mh ("Merged Commit: " ++ take7 mh), hmnode, by rw [hdst]⟩
      · obtain ⟨⟨kv1, hkv1, hsrc⟩, kv2, hkv2, hdst⟩ :=
          commitEdges_sound dict _ _ hce e h6
        constructor
        · exact ⟨kv1.2, List.mem_append_left _ (hdmem kv1 hkv1), hsrc⟩
        · exact ⟨kv2.2, List.mem_append_left _ (hdmem kv2 hkv2), hdst⟩
    · simp only [List.mem_singleton] at h5
      obtain ⟨kv, hkv, hsrc⟩ := hfnk
      constructor
      · refine ⟨kv.2, List.mem_append_left _ (hdmem kv hkv), ?_⟩
        rw [h5]
        exact hsrc
      · exact ⟨Node.mk mh ("Merged Commit: " ++ take7 mh), hmnode, by rw [h5]⟩
  · exact ⟨rfl, by decide⟩

/-- Witness for C6: its universal part applied to the run at wHappy and the
first edge of the produced graph. -/
theorem commit_graph_edges_closed_witness :
    edgeClosed gHappy (Edge.mk "c3" "mergesha") :=
  commit_graph_edges_closed.1 wHappy "feature" "g.dot" gHappy
    [(Level.info, "Fetching commit information for commit c1"),
     (Level.debug, "Parent commit hash for commit c1 is: p0"),
     (Level.info, "Commit graph generated and saved as g.dot")] rfl
    (Edge.mk "c3" "mergesha") (by decide)

/-- C7 counterexample: at wCarriage the branch commit's message is a\rb; its
only node is labelled a, because splitlines cuts at the carriage return,
while truncation at the first newline would keep the whole string — so the
label does not equal the message truncated at the first newline. -/
theorem node_label_newline_counterexample :
    (create_commit_graph wCarriage "feature" "g.dot").1 = Except.ok (some gCarriage) ∧
    gCarriage.nodes.filter (fun n => n.name = "cR") = [Node.mk "cR" "a"] ∧
    firstLineAtNewline commitR.message = "a\rb" ∧
    Node.mk "cR" (firstLineAtNewline commitR.message) ∉ gCarriage.nodes :=
  ⟨rfl, rfl, rfl, by decide⟩

/-- C7 amended: in every successful run, every commit of the anchor-extended
sequence contributes a node whose label is the head of the Python splitlines
of its message — line boundaries include the carriage return and other
line-break characters, not only the newline. -/
theorem node_labels_splitlines_head (w : World) (b out : String) (g : Graph)
    (lg : List LogEntry) (c0 : Commit) (cs : List Commit) (pc : Option Commit)
    (h1 : (get_commits_for_branch w b).1.1 = some (c0 :: cs))
    (h2 : (get_parent_commit w c0).1 = Except.ok pc)
    (h : create_commit_graph w b out = (Except.ok (some g), lg)) :
    ∀ c, some c ∈ pc :: (c0 :: cs).map some →
      ∃ line t, pythonSplitlines c.message = line :: t ∧ Node.mk c.sha line ∈ g.nodes := by
  obtain ⟨c0', cs', pc', mh, nodeList, dict, mergeEdges, pes, fn,
    h1', h2', hbn, h4, hme, hce, hfcx, hg, hfnk⟩ :=
    create_commit_graph_ok_inv w b out g lg h
  have hx : c0 :: cs = c0' :: cs' := by
    have hxx := h1.symm.trans h1'
    injection hxx
  injection hx with hc0 hcs
  subst hc0
  subst hcs
  have hpc : pc = pc' := by
    have hxx := h2.symm.trans h2'
    injection hxx
  subst hpc
  intro c hc
  obtain ⟨line, t, hsp, hmem⟩ := buildNodes_mem_node _ _ _ _ _ hbn c hc
  refine ⟨line, t, hsp, ?_⟩
  rw [hg]
  exact List.mem_append_left _ hmem

/-- Witness for the amended C7 at wCarriage. -/
theorem node_labels_splitlines_head_witness :
    Node.mk "cR" "a" ∈ gCarriage.nodes := by
  obtain ⟨line, t, hsp, hmem⟩ :=
    node_labels_splitlines_head wCarriage "feature" "g.dot" gCarriage
      [(Level.info, "Fetching commit information for commit cR"),
       (Level.debug, "Parent commit hash for commit cR is: p0"),
       (Level.info, "Commit graph generated and saved as g.dot")]
      commitR [] (some commitPR) rfl rfl rfl commitR (by simp)
  have hsp2 : line :: t = ["a", "b"] := by
    rw [← hsp]
    rfl
  have hline : line = "a" := by injection hsp2
  rw [← hline]
  exact hmem

/-- C3: for a fetched sequence c1, c2, c3 with c1 parent of c2 and c2 parent
of c3, merge hash M, and a fetched anchor P, the produced graph contains
nodes named after all four commits and M, the edges c1 to c2, c2 to c3 and
c3 to M, and the additional unconditional edge from the anchor (the first
commit of the extended sequence) to M; and when the anchor carries the same
hash as the last commit (wDupAnchor), that edge is a duplicate: the edge
list holds the anchor-to-merge edge twice. -/
theorem create_commit_graph_scenario :
    (∀ w b out c1 c2 c3 P M,
      (get_commits_for_branch w b).1 = (some [c1, c2, c3], some M) →
      (get_parent_commit w c1).1 = Except.ok (some P) →
      c2.parents = [c1.sha] →
      c3.parents = [c2.sha] →
      (∀ c ∈ [P, c1, c2, c3], pythonSplitlines c.message ≠ []) →
      ∃ g lg, create_commit_graph w b out = (Except.ok (some g), lg) ∧
        (∃ n, n ∈ g.nodes ∧ n.name = P.sha) ∧
        (∃ n, n ∈ g.nodes ∧ n.name = c1.sha) ∧
        (∃ n, n ∈ g.nodes ∧ n.name = c2.sha) ∧
        (∃ n, n ∈ g.nodes ∧ n.name = c3.sha) ∧
        (∃ n, n ∈ g.nodes ∧ n.name = M) ∧
        Edge.mk c1.sha c2.sha ∈ g.edges ∧
        Edge.mk c2.sha c3.sha ∈ g.edges ∧
        Edge.mk c3.sha M ∈ g.edges ∧
        Edge.mk P.sha M ∈ g.edges) ∧
    ((create_commit_graph wDupAnchor "feature" "g.dot").1 = Except.ok (some gDup) ∧
      gDup.edges.count (Edge.mk "cS" "mergesha") = 2) := by
  constructor
  · intro w b out c1 c2 c3 P M hfetch hanchor hp2 hp3 hmsg
    have e1 : (get_commits_for_branch w b).1.1 = some [c1, c2, c3] := by rw [hfetch]
    have e2 : (get_commits_for_branch w b).1.2 = some M := by rw [hfetch]
    have hall : ∀ oc ∈ (some P :: (c1 :: [c2, c3]).map some : List (Option Commit)),
        ∃ c, oc = some c ∧ pythonSplitlines c.message ≠ [] := by
      intro oc hoc
      simp at hoc
      rcases hoc with hh | hh | hh | hh <;> subst hh
      · exact ⟨P, rfl, hmsg P (by simp)⟩
      · exact ⟨c1, rfl, hmsg c1 (by simp)⟩
      · exact ⟨c2, rfl, hmsg c2 (by simp)⟩
      · exact ⟨c3, rfl, hmsg c3 (by simp)⟩
    obtain ⟨ns, d, hbn⟩ := buildNodes_ok _ hall [] []
    have hlkP := buildNodes_lookup_sha _ _ _ _ _ hbn P (by simp)
    have hlk1 := buildNodes_lookup_sha _ _ _ _ _ hbn c1 (by simp)
    have hlk2 := buildNodes_lookup_sha _ _ _ _ _ hbn c2 (by simp)
    have hlk3 := buildNodes_lookup_sha _ _ _ _ _ hbn c3 (by simp)
    obtain ⟨nP, hnP⟩ := Option.isSome_iff_exists.mp hlkP
    obtain ⟨n1, hn1⟩ := Option.isSome_iff_exists.mp hlk1
    obtain ⟨n2, hn2⟩ := Option.isSome_iff_exists.mp hlk2
    obtain ⟨n3, hn3⟩ := Option.isSome_iff_exists.mp hlk3
    have hnamed : dictNamed d :=
      buildNodes_named _ _ _ _ _ hbn (by intro kv hkv; simp at hkv)
    have hnPn : nP.name = P.sha := dictNamed_lookup hnamed hnP
    have hn1n : n1.name = c1.sha := dictNamed_lookup hnamed hn1
    have hn2n : n2.name = c2.sha := dictNamed_lookup hnamed hn2
    have hn3n : n3.name = c3.sha := dictNamed_lookup hnamed hn3
    have hok : ∀ oc ∈ (some P :: (c1 :: [c2, c3]).map some : List (Option Commit)),
        ∃ c, oc = some c ∧ (dictLookup d c.sha).isSome := by
      intro oc hoc
      simp at hoc
      rcases hoc with hh | hh | hh | hh <;> subst hh
      · exact ⟨P, rfl, hlkP⟩
      · exact ⟨c1, rfl, hlk1⟩
      · exact ⟨c2, rfl, hlk2⟩
      · exact ⟨c3, rfl, hlk3⟩
    obtain ⟨pes, hpes⟩ := commitEdges_ok d _ hok
    have e3 : (some P :: (c1 :: [c2, c3]).map some : List (Option Commit)).getLast? =
        some (some c3) := rfl
    obtain ⟨lP, tP, hsPx, hmemP⟩ := buildNodes_mem_node _ _ _ _ _ hbn P (by simp)
    obtain ⟨l1, t1, hs1x, hmem1⟩ := buildNodes_mem_node _ _ _ _ _ hbn c1 (by simp)
    obtain ⟨l2, t2, hs2x, hmem2⟩ := buildNodes_mem_node _ _ _ _ _ hbn c2 (by simp)
    obtain ⟨l3, t3, hs3x, hmem3⟩ := buildNodes_mem_node _ _ _ _ _ hbn c3 (by simp)
    have he12 : Edge.mk n1.name n2.name ∈ pes :=
      commitEdges_mem d _ _ hpes c2 (by simp) c1.sha (by rw [hp2]; simp) n1 n2 hn1 hn2
    have he23 : Edge.mk n2.name n3.name ∈ pes :=
      commitEdges_mem d _ _ hpes c3 (by simp) c2.sha (by rw [hp3]; simp) n2 n3 hn2 hn3
    refine ⟨Graph.mk (ns ++ [Node.mk M ("Merged Commit: " ++ take7 M)])
        ([Edge.mk n3.name M] ++ pes ++ [Edge.mk nP.name M]),
      (get_commits_for_branch w b).2 ++ (get_parent_commit w c1).2 ++
        [(Level.info, "Commit graph generated and saved as " ++ out)],
      ?_, ?_, ?_, ?_, ?_, ?_, ?_, ?_, ?_, ?_⟩
    · simp only [create_commit_graph, e1, e2, hanchor, hbn, e3, hn3, hpes,
        finishGraph, hnP]
    · exact ⟨Node.mk P.sha lP, List.mem_append_left _ hmemP, rfl⟩
    · exact ⟨Node.mk c1.sha l1, List.mem_append_left _ hmem1, rfl⟩
    · exact ⟨Node.mk c2.sha l2, List.mem_append_left _ hmem2, rfl⟩
    · exact ⟨Node.mk c3.sha l3, List.mem_append_left _ hmem3, rfl⟩
    · exact ⟨Node.mk M ("Merged Commit: " ++ take7 M),
        List.mem_append_right _ (by simp), rfl⟩
    · rw [← hn1n, ← hn2n]
      exact List.mem_append_left _ (List.mem_append_right _ he12)
    · rw [← hn2n, ← hn3n]
      exact List.mem_append_left _ (List.mem_append_right _ he23)
    · rw [← hn3n]
      simp
    · rw [← hnPn]
      simp
  · exact ⟨rfl, by decide⟩

/-- Witness for C3: the scenario applied at wHappy, identifying the produced
graph with gHappy and reading off two of the claimed edges. -/
theorem create_commit_graph_scenario_witness :
    Edge.mk "c1" "c2" ∈ gHappy.edges ∧ Edge.mk "p0" "mergesha" ∈ gHappy.edges := by
  obtain ⟨g, lg, hrun, hnP, hn1, hn2, hn3, hnM, he12, he23, he3M, hePM⟩ :=
    create_commit_graph_scenario.1 wHappy "feature" "g.dot"
      commitC1 commitC2 commitC3 commitP "mergesha"
      rfl rfl rfl rfl (by decide)
  have hid : ((Except.ok (some g) : Except PyError (Option Graph)), lg) =
      ((Except.ok (some gHappy) : Except PyError (Option Graph)),
        [(Level.info, "Fetching commit information for commit c1"),
         (Level.debug, "Parent commit hash for commit c1 is: p0"),
         (Level.info, "Commit graph generated and saved as g.dot")]) :=
    hrun.symm.trans rfl
  have hg : g = gHappy := by
    have h1 := congrArg Prod.fst hid
    simp only [Except.ok.injEq, Option.some.injEq] at h1
    exact h1
  rw [hg] at he12 hePM
  exact ⟨he12, hePM⟩
